import Mathlib

/-!
Shallow embedding of `src/dataset.py` (class `TextDataset`) from the
Sentiment-analysis repository, together with proofs of the specified
properties.

Strings are modelled as `List Char`.  The external collaborators that are
not part of the repository (the sklearn `train_test_split` shuffler, the
torch `DataLoader` batching, the pandas CSV reader and the
`TextVectorizer` from the missing `vectorizer.py`) are modelled from the
spec, with their randomness made explicit as parameters (the shuffled
lists / index permutations), each constrained by a permutation hypothesis
in the theorems.
-/

namespace SentimentDataset

/-- A data record: one row of the dataframe, with a `text` and a `label`
column. -/
structure Record where
  text : List Char
  label : String
  deriving DecidableEq, Repr

/-- Errors surfaced by the component (spec section 7). -/
inductive Err where
  | InvalidSplit
  | IndexOutOfRange
  | UnknownLabel
  deriving DecidableEq, Repr

/-- Modelled from the spec: the external `TextVectorizer`
(`vectorizer.py` is not in the repository).  It holds a label vocabulary
(lookup fails with `UnknownLabel` when the label is absent), a
sequence-length bound, and a vectorizing function from cleaned text to a
numeric vector. -/
structure TextVectorizer where
  labelVocab : List String
  seqLen : Nat
  vec : List Char → List Nat

/-- Modelled from the spec: `label_vocab.lookup_token` maps a label
string to its integer index, failing when the label is absent from the
vocabulary. -/
def lookupToken (vocab : List String) (label : String) : Option Nat :=
  vocab.indexOf? label

/-- The state of a `TextDataset` object after construction: the three
fixed partitions, the vectorizer and stopword set, and the mutable
"active split" fields `_target_split` / `_target_data` / `_target_size`. -/
structure TextDataset where
  vectorizer : TextVectorizer
  train_data : List Record
  val_data : List Record
  test_data : List Record
  stopwords : List (List Char)
  target_split : String
  target_data : List Record
  target_size : Nat

/-- `self._lookup_dict`: maps a split name to the pair
`(partition, partition length)`; absent keys give `none` (a Python
`KeyError`). -/
def lookupDict (ds : TextDataset) (split : String) :
    Option (List Record × Nat) :=
  if split = "train" then some (ds.train_data, ds.train_data.length)
  else if split = "val" then some (ds.val_data, ds.val_data.length)
  else if split = "test" then some (ds.test_data, ds.test_data.length)
  else none

/-- `TextDataset.set_split`: records the requested name, then looks it up
in `_lookup_dict`, failing with `InvalidSplit` (a `KeyError` in the
source) when the name is not a key. -/
def set_split (ds : TextDataset) (split : String) :
    Except Err TextDataset :=
  match lookupDict ds split with
  | some (d, n) =>
      .ok { ds with target_split := split, target_data := d, target_size := n }
  | none => .error .InvalidSplit

/-- `TextDataset.__len__`: the record count of the active split. -/
def size (ds : TextDataset) : Nat :=
  ds.target_size

/-- `sklearn.model_selection.train_test_split` test-set size for a float
fraction `num/den`: `ceil(n * num / den)`. -/
def testCount (n num den : Nat) : Nat :=
  (n * num + den - 1) / den

/-- Modelled from the spec: `sklearn.model_selection.train_test_split`
shuffles the input and returns `(train, test)` where `test` is the first
`testCount` elements of the shuffled input and `train` the rest.  The
shuffled list is a parameter (the randomness made explicit). -/
def train_test_split (shuffled : List Record) (num den : Nat) :
    List Record × List Record :=
  (shuffled.drop (testCount shuffled.length num den),
   shuffled.take (testCount shuffled.length num den))

/-- `TextDataset.__init__`: two randomized splits (`test_size=0.2`, then
`test_size=0.25` on the remainder), then `set_split('train')`.
`shuf1` is the shuffle of the input used by the first split and `shuf2`
the reshuffle of the first split's train part used by the second. -/
def mkTextDataset (vect : TextVectorizer) (stop : List (List Char))
    (shuf1 shuf2 : List Record) : TextDataset :=
  let p1 := train_test_split shuf1 1 5
  let p2 := train_test_split shuf2 1 4
  let train := p2.1
  let val := p2.2
  let test := p1.2
  { vectorizer := vect
    train_data := train
    val_data := val
    test_data := test
    stopwords := stop
    target_split := "train"
    target_data := train
    target_size := train.length }

/-- Python's `\w` character class restricted to ASCII: letters, digits
and the underscore. -/
def isWordChar (c : Char) : Bool :=
  c.isAlphanum || c == '_'

/-- Python's `str.split()` with no arguments: maximal runs of
non-whitespace characters, with empty pieces dropped.  `acc` holds the
reversed current word. -/
def splitWordsAux : List Char → List Char → List (List Char)
  | [], acc => if acc.isEmpty then [] else [acc.reverse]
  | c :: cs, acc =>
      if c.isWhitespace then
        if acc.isEmpty then splitWordsAux cs []
        else acc.reverse :: splitWordsAux cs []
      else splitWordsAux cs (c :: acc)

def splitWords (s : List Char) : List (List Char) :=
  splitWordsAux s []

/-- `' '.join(ws)`. -/
def joinWords : List (List Char) → List Char
  | [] => []
  | [w] => w
  | w :: ws => w ++ ' ' :: joinWords ws

/-- `TextDataset.__string_processing`: lowercase, strip every character
that is neither a word character nor whitespace (`re.sub(r"[^\w\s]", '', s)`),
drop stopword tokens, rejoin with single spaces. -/
def string_processing (stop : List (List Char)) (s : List Char) :
    List Char :=
  let s1 := s.map Char.toLower
  let s2 := s1.filter (fun c => isWordChar c || c.isWhitespace)
  let ws := (splitWords s2).filter (fun w => decide (w ∉ stop))
  joinWords ws

/-- `pandas.DataFrame.iloc` positional lookup with an integer index:
negative indices count from the end; out-of-range indices fail. -/
def ilocGet (l : List Record) (i : Int) : Option Record :=
  let j : Int := if i < 0 then i + l.length else i
  if h : 0 ≤ j ∧ j.toNat < l.length then some (l.get ⟨j.toNat, h.2⟩)
  else none

/-- `TextDataset.__getitem__`: fetch row `index` of the active split via
`iloc`, normalize its text, vectorize, and look the label up in the
label vocabulary. -/
def getItem (ds : TextDataset) (index : Int) :
    Except Err (List Nat × Nat) :=
  match ilocGet ds.target_data index with
  | none => .error .IndexOutOfRange
  | some row =>
      let rowText := string_processing ds.stopwords row.text
      let textVector := ds.vectorizer.vec rowText
      match lookupToken ds.vectorizer.labelVocab row.label with
      | none => .error .UnknownLabel
      | some labelIndex => .ok (textVector, labelIndex)

/-- Consecutive chunks of `bs` elements, fuel-indexed for structural
recursion; the last chunk may be shorter.  (`bs = 0` is invalid for the
external loader; it yields no chunks here.) -/
def chunkListFuel {α : Type} (bs : Nat) : Nat → List α → List (List α)
  | _, [] => []
  | 0, _ :: _ => []
  | f + 1, c :: cs =>
      match bs with
      | 0 => []
      | b + 1 => (c :: cs).take (b + 1) :: chunkListFuel (b + 1) f (cs.drop b)

/-- Consecutive chunks of `bs` elements of a list. -/
def chunkList {α : Type} (bs : Nat) (l : List α) : List (List α) :=
  chunkListFuel bs l.length l

/-- Modelled from the spec: `generate_batches` delegates to a torch
`DataLoader` over `self` (torch is not in the repository): it samples an
index sequence `shuffledIdx` (a permutation of `range(len(self))` when
shuffling), groups it into consecutive chunks of `batch_size`, and when
`drop_last` keeps only the `len // batch_size` full chunks; moving a
batch to the device changes no values in this model. -/
def generateBatches (ds : TextDataset) (batchSize : Nat)
    (shuffledIdx : List Nat) (dropLast : Bool) : List (List Nat) :=
  let _ := ds
  let chunks := chunkList batchSize shuffledIdx
  if dropLast then chunks.take (shuffledIdx.length / batchSize) else chunks

/-- `text_data.text.str.len().max()`: the maximum text length over the
records. -/
def maxTextLen (records : List Record) : Nat :=
  (records.map (fun r => r.text.length)).foldl max 0

/-- Modelled from the spec: `TextVectorizer.from_dataframe`
(`vectorizer.py` is not in the repository) builds a vectorizer from the
records with the given sequence-length bound; its label vocabulary holds
the distinct labels of the records. -/
def TextVectorizer.from_dataframe (records : List Record) (seqLen : Nat) :
    TextVectorizer :=
  { labelVocab := (records.map (fun r => r.label)).dedup
    seqLen := seqLen
    vec := fun t => ((t.map Char.toNat).take seqLen) }

/-- `TextDataset.load_dataset_and_make_vectorizer`: the records stand
for the parsed CSV (`pd.read_csv` is external); the sequence-length
bound is the maximum text length, replaced by `359` when it exceeds
`1000`; `shuf1`/`shuf2` are the construction shuffles. -/
def load_dataset_and_make_vectorizer (records : List Record)
    (stop : List (List Char)) (shuf1 shuf2 : List Record) : TextDataset :=
  let seqLen0 := maxTextLen records
  let seqLen := if seqLen0 > 1000 then 359 else seqLen0
  mkTextDataset (TextVectorizer.from_dataframe records seqLen) stop
    shuf1 shuf2

/-- The post-construction operations of the claims.  For batching the
sampled index order is part of the operation (the randomness made
explicit). -/
inductive Op where
  | setSplitOp (s : String)
  | sizeOp
  | getItemOp (i : Int)
  | genBatchesOp (bs : Nat) (idx : List Nat) (dl : Bool)

/-- The state after one operation.  `size`, `getItem` and
`generateBatches` are queries; a failing `set_split` has still assigned
`_target_split` before the lookup raised. -/
def applyOp (ds : TextDataset) : Op → TextDataset
  | .setSplitOp s =>
      match set_split ds s with
      | .ok updated => updated
      | .error _ => { ds with target_split := s }
  | .sizeOp => ds
  | .getItemOp _ => ds
  | .genBatchesOp _ _ _ => ds

/-- The state after a sequence of operations. -/
def run (ds : TextDataset) : List Op → TextDataset
  | [] => ds
  | op :: ops => run (applyOp ds op) ops

/-- A concrete vectorizer used to instantiate universally quantified
theorems. -/
def sampleVectorizer : TextVectorizer :=
  { labelVocab := ["pos"], seqLen := 5, vec := fun t => [t.length] }

/-- Five concrete records. -/
def sampleRecords : List Record :=
  [⟨['a'], "pos"⟩, ⟨['b'], "pos"⟩, ⟨['c'], "pos"⟩,
   ⟨['d'], "pos"⟩, ⟨['e'], "pos"⟩]

/-- A concrete dataset built by the constructor (identity shuffles):
test = first record, val = second, train = last three. -/
def sampleDS : TextDataset :=
  mkTextDataset sampleVectorizer ["the".data] sampleRecords
    (sampleRecords.drop 1)

/-- Five concrete records whose label is absent from
`sampleVectorizer`'s vocabulary. -/
def badRecords : List Record :=
  [⟨['a'], "neg"⟩, ⟨['b'], "neg"⟩, ⟨['c'], "neg"⟩,
   ⟨['d'], "neg"⟩, ⟨['e'], "neg"⟩]

/-- A concrete dataset whose records all carry an unknown label. -/
def sampleBadDS : TextDataset :=
  mkTextDataset sampleVectorizer ["the".data] badRecords
    (badRecords.drop 1)

/-- C4: text normalization lowercases, strips characters that are
neither word characters nor whitespace, drops stopword tokens and
rejoins with single spaces; on `"The Quick, FOX!! jumps"` with stopword
set `{"the"}` it returns exactly `"quick fox jumps"`. -/
theorem string_processing_example :
    string_processing ["the".data] "The Quick, FOX!! jumps".data
      = "quick fox jumps".data := by
  decide

/-- C2: for every instance, `set_split` to each valid name followed by
`size` returns exactly that partition's record count, and a freshly
constructed instance has active split `"train"` with `size` the train
partition's count. -/
theorem set_split_size_correct :
    (∀ ds : TextDataset,
      (set_split ds "train").map size = .ok ds.train_data.length ∧
      (set_split ds "val").map size = .ok ds.val_data.length ∧
      (set_split ds "test").map size = .ok ds.test_data.length) ∧
    (∀ (vect : TextVectorizer) (stop : List (List Char))
        (shuf1 shuf2 : List Record),
      (mkTextDataset vect stop shuf1 shuf2).target_split = "train" ∧
      size (mkTextDataset vect stop shuf1 shuf2)
        = (mkTextDataset vect stop shuf1 shuf2).train_data.length) := by
  constructor
  · intro ds
    refine ⟨?_, ?_, ?_⟩ <;> simp [set_split, lookupDict, size, Except.map]
  · intro vect stop shuf1 shuf2
    exact ⟨rfl, rfl⟩

/-- C3: `set_split` fails with `InvalidSplit` for every name outside
`{train, val, test}` and succeeds for every name in that set. -/
theorem set_split_invalid_valid (ds : TextDataset) (name : String) :
    (name ∉ ["train", "val", "test"] →
      set_split ds name = .error .InvalidSplit) ∧
    (name ∈ ["train", "val", "test"] →
      ∃ updated, set_split ds name = .ok updated) := by
  constructor
  · intro hnot
    simp only [List.mem_cons, List.not_mem_nil, or_false, not_or] at hnot
    simp [set_split, lookupDict, hnot.1, hnot.2.1, hnot.2.2]
  · intro hmem
    simp only [List.mem_cons, List.not_mem_nil, or_false] at hmem
    rcases hmem with h | h | h <;> subst h <;> exact ⟨_, rfl⟩

/-- Witness for C3 at the concrete dataset, with the invalid name
`"foo"` and the valid name `"val"`. -/
theorem set_split_invalid_valid_witness :
    set_split sampleDS "foo" = .error .InvalidSplit ∧
    ∃ updated, set_split sampleDS "val" = .ok updated :=
  ⟨(set_split_invalid_valid sampleDS "foo").1 (by decide),
   (set_split_invalid_valid sampleDS "val").2 (by decide)⟩

/-- C9: partition membership is fixed for the object's lifetime: after
any sequence of `set_split`, `size`, `get_item` and `generate_batches`
operations the three partitions are unchanged. -/
theorem partitions_fixed (ds : TextDataset) (ops : List Op) :
    (run ds ops).train_data = ds.train_data ∧
    (run ds ops).val_data = ds.val_data ∧
    (run ds ops).test_data = ds.test_data := by
  induction ops generalizing ds with
  | nil => exact ⟨rfl, rfl, rfl⟩
  | cons op ops ih =>
      have step : (applyOp ds op).train_data = ds.train_data ∧
          (applyOp ds op).val_data = ds.val_data ∧
          (applyOp ds op).test_data = ds.test_data := by
        cases op with
        | setSplitOp s =>
            simp only [applyOp]
            cases hs : set_split ds s with
            | ok updated =>
                unfold set_split at hs
                cases hd : lookupDict ds s with
                | none => rw [hd] at hs; exact absurd hs (by simp)
                | some p =>
                    rw [hd] at hs
                    cases hs
                    exact ⟨rfl, rfl, rfl⟩
            | error e => exact ⟨rfl, rfl, rfl⟩
        | sizeOp => exact ⟨rfl, rfl, rfl⟩
        | getItemOp i => exact ⟨rfl, rfl, rfl⟩
        | genBatchesOp bs idx dl => exact ⟨rfl, rfl, rfl⟩
      have tail := ih (applyOp ds op)
      simp only [run]
      exact ⟨step.1 ▸ tail.1, step.2.1 ▸ tail.2.1, step.2.2 ▸ tail.2.2⟩

lemma toNat_ofNat_valid (n : Nat) (h : n.isValidChar) : (Char.ofNat n).toNat = n := by
  rw [Char.ofNat, dif_pos h]; rfl

lemma toLower_idem (c : Char) : c.toLower.toLower = c.toLower := by
  simp only [Char.toLower]
  by_cases h : 65 ≤ c.toNat ∧ c.toNat ≤ 90
  · rw [if_pos h]
    have hv : (c.toNat + 32).isValidChar := Or.inl (by omega)
    have ht : (Char.ofNat (c.toNat + 32)).toNat = c.toNat + 32 :=
      toNat_ofNat_valid _ hv
    rw [if_neg]
    rw [ht]
    omega
  · rw [if_neg h, if_neg h]

/-- Every word produced by `splitWordsAux` is nonempty and, provided the
non-whitespace input characters and the accumulator characters satisfy
`p`, all its characters satisfy `p`. -/
lemma splitWordsAux_words (p : Char → Prop) :
    ∀ (cs acc : List Char),
      (∀ c ∈ cs, c.isWhitespace = false → p c) →
      (∀ c ∈ acc, p c) →
      ∀ w ∈ splitWordsAux cs acc, w ≠ [] ∧ ∀ c ∈ w, p c
  | [], acc, _, hacc => by
      intro w hw
      simp only [splitWordsAux] at hw
      by_cases he : acc.isEmpty
      · simp [he] at hw
      · simp only [if_neg he, List.mem_singleton] at hw
        subst hw
        refine ⟨?_, ?_⟩
        · simpa [List.isEmpty_iff] using fun h2 => he (by simp [List.isEmpty_iff, ← List.reverse_eq_nil_iff, h2])
        · intro c hc
          exact hacc c (List.mem_reverse.mp hc)
  | c :: cs, acc, hcs, hacc => by
      intro w hw
      simp only [splitWordsAux] at hw
      by_cases hws : c.isWhitespace
      · rw [if_pos hws] at hw
        by_cases he : acc.isEmpty
        · rw [if_pos he] at hw
          exact splitWordsAux_words p cs []
            (fun d hd => hcs d (List.mem_cons_of_mem _ hd)) (by simp) w hw
        · rw [if_neg he] at hw
          rcases List.mem_cons.mp hw with h | h
          · subst h
            refine ⟨?_, ?_⟩
            · simpa [List.isEmpty_iff] using fun h2 => he (by simp [List.isEmpty_iff, ← List.reverse_eq_nil_iff, h2])
            · intro d hd
              exact hacc d (List.mem_reverse.mp hd)
          · exact splitWordsAux_words p cs []
              (fun d hd => hcs d (List.mem_cons_of_mem _ hd)) (by simp) w h
      · rw [if_neg hws] at hw
        refine splitWordsAux_words p cs (c :: acc)
          (fun d hd => hcs d (List.mem_cons_of_mem _ hd)) ?_ w hw
        intro d hd
        rcases List.mem_cons.mp hd with h | h
        · subst h
          exact hcs d (List.mem_cons_self _ _) (by simpa using hws)
        · exact hacc d h

/-- Characters of a joined word list are spaces or characters of one of
the words. -/
lemma mem_joinWords :
    ∀ (ws : List (List Char)), ∀ c ∈ joinWords ws,
      c = ' ' ∨ ∃ w ∈ ws, c ∈ w
  | [] => by intro c hc; simp [joinWords] at hc
  | [w] => by
      intro c hc
      simp only [joinWords] at hc
      exact Or.inr ⟨w, by simp, hc⟩
  | w :: w2 :: ws => by
      intro c hc
      simp only [joinWords, List.mem_append, List.mem_cons] at hc
      rcases hc with h | h | h
      · exact Or.inr ⟨w, by simp, h⟩
      · exact Or.inl h
      · rcases mem_joinWords (w2 :: ws) c h with h2 | ⟨w3, hw3, hc3⟩
        · exact Or.inl h2
        · exact Or.inr ⟨w3, List.mem_cons_of_mem _ hw3, hc3⟩

/-- Feeding a run of non-whitespace characters into the splitter extends
the accumulator. -/
lemma splitWordsAux_nonws_run :
    ∀ (w cs acc : List Char), (∀ c ∈ w, c.isWhitespace = false) →
      splitWordsAux (w ++ cs) acc = splitWordsAux cs (w.reverse ++ acc)
  | [], cs, acc, _ => by simp
  | c :: w, cs, acc, hw => by
      have hc : c.isWhitespace = false := hw c (List.mem_cons_self _ _)
      simp only [List.cons_append, splitWordsAux, hc, Bool.false_eq_true,
        if_false, List.append_eq]
      rw [splitWordsAux_nonws_run w cs (c :: acc)
        (fun d hd => hw d (List.mem_cons_of_mem _ hd))]
      simp

/-- Splitting a join of nonempty whitespace-free words recovers the
words. -/
lemma splitWords_joinWords :
    ∀ (ws : List (List Char)),
      (∀ w ∈ ws, w ≠ [] ∧ ∀ c ∈ w, c.isWhitespace = false) →
      splitWords (joinWords ws) = ws
  | [] => by intro _; rfl
  | [w] => by
      intro h
      obtain ⟨hne, hnws⟩ := h w (by simp)
      show splitWordsAux (joinWords [w]) [] = [w]
      simp only [joinWords]
      have := splitWordsAux_nonws_run w [] [] hnws
      simp only [List.append_nil] at this
      rw [this]
      simp only [splitWordsAux, List.append_nil]
      rw [if_neg (by simpa [List.isEmpty_iff, List.reverse_eq_nil_iff] using hne)]
      simp
  | w :: w2 :: ws => by
      intro h
      obtain ⟨hne, hnws⟩ := h w (by simp)
      show splitWordsAux (joinWords (w :: w2 :: ws)) [] = w :: w2 :: ws
      simp only [joinWords]
      rw [splitWordsAux_nonws_run w (' ' :: joinWords (w2 :: ws)) [] hnws]
      simp only [splitWordsAux, Char.isWhitespace]
      rw [if_pos (by decide)]
      rw [if_neg (by simpa [List.isEmpty_iff, List.reverse_eq_nil_iff] using hne)]
      simp only [List.append_nil, List.reverse_reverse]
      have := splitWords_joinWords (w2 :: ws) (fun v hv => h v (List.mem_cons_of_mem _ hv))
      rw [show splitWordsAux (joinWords (w2 :: ws)) [] = splitWords (joinWords (w2 :: ws)) from rfl, this]

lemma map_self_of_fixed {f : Char → Char} :
    ∀ l : List Char, (∀ c ∈ l, f c = c) → l.map f = l
  | [], _ => rfl
  | c :: cs, h => by
      simp only [List.map_cons]
      rw [h c (List.mem_cons_self _ _),
        map_self_of_fixed cs (fun d hd => h d (List.mem_cons_of_mem _ hd))]

/-- C5: text normalization is idempotent: for every stopword set and
every input string, processing the processed string returns it
unchanged. -/
theorem string_processing_idempotent (stop : List (List Char)) (s : List Char) :
    string_processing stop (string_processing stop s)
      = string_processing stop s := by
  simp only [string_processing]
  set s2 := (s.map Char.toLower).filter (fun c => isWordChar c || c.isWhitespace) with hs2
  set ws := (splitWords s2).filter (fun w => decide (w ∉ stop)) with hws
  -- property of the characters of the words of `ws`
  have hchars : ∀ w ∈ ws, w ≠ [] ∧ ∀ c ∈ w,
      c.isWhitespace = false ∧ isWordChar c = true ∧ c.toLower = c := by
    intro w hw
    refine splitWordsAux_words
      (fun c => c.isWhitespace = false ∧ isWordChar c = true ∧ c.toLower = c)
      s2 [] ?_ (by simp) w (List.mem_of_mem_filter hw)
    intro c hc hcw
    rw [hs2] at hc
    obtain ⟨hmem, hkeep⟩ := List.mem_filter.mp hc
    obtain ⟨c0, _, rfl⟩ := List.mem_map.mp hmem
    refine ⟨hcw, ?_, toLower_idem c0⟩
    simpa [hcw] using hkeep
  -- characters of the joined output
  have hout : ∀ c ∈ joinWords ws,
      c.toLower = c ∧ (isWordChar c || c.isWhitespace) = true := by
    intro c hc
    rcases mem_joinWords ws c hc with rfl | ⟨w, hw, hcw⟩
    · exact ⟨rfl, by decide⟩
    · obtain ⟨-, hall⟩ := hchars w hw
      obtain ⟨-, h2, h3⟩ := hall c hcw
      exact ⟨h3, by simp [h2]⟩
  -- step C: lowering is the identity on the output
  have hmap : (joinWords ws).map Char.toLower = joinWords ws :=
    map_self_of_fixed _ (fun c hc => (hout c hc).1)
  -- step D: the filter keeps everything
  have hfilter : (joinWords ws).filter (fun c => isWordChar c || c.isWhitespace)
      = joinWords ws :=
    List.filter_eq_self.mpr (fun c hc => (hout c hc).2)
  -- step E: splitting the join recovers the words
  have hsplit : splitWords (joinWords ws) = ws :=
    splitWords_joinWords ws (fun w hw =>
      ⟨(hchars w hw).1, fun c hc => ((hchars w hw).2 c hc).1⟩)
  -- step F: the stopword filter is idempotent
  have hstop : ws.filter (fun w => decide (w ∉ stop)) = ws := by
    rw [hws, List.filter_filter]
    simp
  rw [hmap, hfilter, hsplit, hstop]

/-- C1: the two randomized construction splits produce three pairwise
disjoint partitions whose counts sum to the input count, the first split
taking `ceil(n/5)` records for test and the second `ceil` a quarter of
the remainder for val; on inputs divisible by 5 the sizes are exactly
60/20/20 percent. -/
theorem split_partition (vect : TextVectorizer) (stop : List (List Char))
    (data shuf1 shuf2 : List Record) (ds : TextDataset)
    (hds : ds = mkTextDataset vect stop shuf1 shuf2)
    (h1 : shuf1.Perm data)
    (h2 : shuf2.Perm (shuf1.drop (testCount shuf1.length 1 5))) :
    (ds.train_data ++ ds.val_data ++ ds.test_data).Perm data ∧
    ds.train_data.length + ds.val_data.length + ds.test_data.length
      = data.length ∧
    ds.test_data.length = (data.length + 4) / 5 ∧
    ds.val_data.length = (data.length - ds.test_data.length + 3) / 4 ∧
    (data.Nodup →
      ds.train_data.Disjoint ds.val_data ∧
      ds.train_data.Disjoint ds.test_data ∧
      ds.val_data.Disjoint ds.test_data) ∧
    (5 ∣ data.length →
      ds.train_data.length = 3 * (data.length / 5) ∧
      ds.val_data.length = data.length / 5 ∧
      ds.test_data.length = data.length / 5) := by
  subst hds
  simp only [mkTextDataset, train_test_split]
  have hl1 : shuf1.length = data.length := h1.length_eq
  have hl2 : shuf2.length
      = shuf1.length - testCount shuf1.length 1 5 := by
    rw [h2.length_eq, List.length_drop]
  have ht1 : testCount shuf1.length 1 5 ≤ shuf1.length := by
    simp only [testCount]
    omega
  have ht2 : testCount shuf2.length 1 4 ≤ shuf2.length := by
    simp only [testCount]
    omega
  have hmin1 : min (testCount shuf1.length 1 5) shuf1.length
      = testCount shuf1.length 1 5 := Nat.min_eq_left ht1
  have hmin2 : min (testCount shuf2.length 1 4) shuf2.length
      = testCount shuf2.length 1 4 := Nat.min_eq_left ht2
  have hp : (shuf2.drop (testCount shuf2.length 1 4)
        ++ shuf2.take (testCount shuf2.length 1 4)
        ++ shuf1.take (testCount shuf1.length 1 5)).Perm data := by
    have e2 : shuf2.take (testCount shuf2.length 1 4)
        ++ shuf2.drop (testCount shuf2.length 1 4) = shuf2 :=
      List.take_append_drop _ _
    have e1 : shuf1.take (testCount shuf1.length 1 5)
        ++ shuf1.drop (testCount shuf1.length 1 5) = shuf1 :=
      List.take_append_drop _ _
    have s1 : (shuf2.drop (testCount shuf2.length 1 4)
        ++ shuf2.take (testCount shuf2.length 1 4)).Perm shuf2 := by
      conv_rhs => rw [← e2]
      exact List.perm_append_comm
    have s3 : (shuf2 ++ shuf1.take (testCount shuf1.length 1 5)).Perm
        (shuf1.drop (testCount shuf1.length 1 5)
          ++ shuf1.take (testCount shuf1.length 1 5)) :=
      h2.append_right _
    have s4 : (shuf1.drop (testCount shuf1.length 1 5)
        ++ shuf1.take (testCount shuf1.length 1 5)).Perm shuf1 := by
      conv_rhs => rw [← e1]
      exact List.perm_append_comm
    exact ((s1.append_right _).trans s3).trans (s4.trans h1)
  refine ⟨hp, ?_, ?_, ?_, ?_, ?_⟩
  · simp only [List.length_drop, List.length_take, hmin1, hmin2]
    simp only [testCount] at ht1 ht2 hl2 ⊢
    omega
  · simp only [List.length_take, hmin1]
    simp only [testCount] at ht1 hl1 ⊢
    omega
  · simp only [List.length_take, hmin1, hmin2]
    simp only [testCount] at ht1 ht2 hl2 ⊢
    omega
  · intro hnd
    have hnodup : (shuf2.drop (testCount shuf2.length 1 4)
        ++ shuf2.take (testCount shuf2.length 1 4)
        ++ shuf1.take (testCount shuf1.length 1 5)).Nodup :=
      hp.nodup_iff.mpr hnd
    rw [List.nodup_append] at hnodup
    obtain ⟨hab, _, habc⟩ := hnodup
    rw [List.nodup_append] at hab
    rw [List.disjoint_append_left] at habc
    exact ⟨hab.2.2, habc.1, habc.2⟩
  · intro hdvd
    simp only [List.length_drop, List.length_take, hmin1, hmin2]
    simp only [testCount] at ht1 ht2 hl2 ⊢
    omega

/-- Witness for C1 at five concrete records with identity shuffles:
test = 1 record, val = 1, train = 3. -/
theorem split_partition_witness :
    (sampleDS.train_data ++ sampleDS.val_data ++ sampleDS.test_data).Perm
        sampleRecords ∧
    sampleDS.train_data.length + sampleDS.val_data.length
        + sampleDS.test_data.length = 5 ∧
    sampleDS.test_data.length = 1 ∧
    sampleDS.val_data.length = 1 ∧
    sampleDS.train_data.Disjoint sampleDS.val_data ∧
    sampleDS.train_data.Disjoint sampleDS.test_data ∧
    sampleDS.val_data.Disjoint sampleDS.test_data ∧
    sampleDS.train_data.length = 3 := by
  have h := split_partition sampleVectorizer ["the".data] sampleRecords
    sampleRecords (sampleRecords.drop 1) sampleDS rfl (by decide) (by decide)
  obtain ⟨hperm, hsum, htest, hval, hdisj, hfifth⟩ := h
  have hd := hdisj (by decide)
  exact ⟨hperm, hsum, by simpa using htest, by simpa using hval,
    hd.1, hd.2.1, hd.2.2, by simpa using (hfifth (by decide)).1⟩

lemma le_foldl_max : ∀ (l : List Nat) (a : Nat), a ≤ l.foldl max a
  | [], _ => Nat.le_refl _
  | x :: xs, a => le_trans (Nat.le_max_left a x) (le_foldl_max xs (max a x))

lemma mem_le_foldl_max : ∀ (l : List Nat) (a : Nat), ∀ x ∈ l, x ≤ l.foldl max a
  | [], _, _, hx => absurd hx (List.not_mem_nil _)
  | y :: ys, a, x, hx => by
      rcases List.mem_cons.mp hx with h | h
      · subst h
        exact le_trans (Nat.le_max_right a x) (le_foldl_max ys (max a x))
      · exact mem_le_foldl_max ys (max a y) x h

lemma foldl_max_le : ∀ (l : List Nat) (a b : Nat), a ≤ b →
    (∀ x ∈ l, x ≤ b) → l.foldl max a ≤ b
  | [], _, _, ha, _ => ha
  | y :: ys, a, b, ha, hl => by
      refine foldl_max_le ys (max a y) b ?_ ?_
      · exact max_le ha (hl y (List.mem_cons_self _ _))
      · intro x hx
        exact hl x (List.mem_cons_of_mem _ hx)

/-- Every record's text length is bounded by `maxTextLen`. -/
lemma le_maxTextLen (records : List Record) :
    ∀ r ∈ records, r.text.length ≤ maxTextLen records := by
  intro r hr
  exact mem_le_foldl_max _ 0 _ (List.mem_map_of_mem _ hr)

/-- C8: the factory's sequence-length bound equals the maximum text
length over the records when that maximum is at most 1000, and is 359
whenever some record's text exceeds 1000 characters. -/
theorem seq_len_capped (records : List Record) (stop : List (List Char))
    (shuf1 shuf2 : List Record) :
    ((∀ r ∈ records, r.text.length ≤ 1000) →
      (load_dataset_and_make_vectorizer records stop
          shuf1 shuf2).vectorizer.seqLen = maxTextLen records ∧
      ∀ r ∈ records, r.text.length ≤
        (load_dataset_and_make_vectorizer records stop
          shuf1 shuf2).vectorizer.seqLen) ∧
    ((∃ r ∈ records, 1000 < r.text.length) →
      (load_dataset_and_make_vectorizer records stop
          shuf1 shuf2).vectorizer.seqLen = 359) := by
  have hvect : (load_dataset_and_make_vectorizer records stop
      shuf1 shuf2).vectorizer.seqLen
      = if maxTextLen records > 1000 then 359 else maxTextLen records := by
    simp [load_dataset_and_make_vectorizer, mkTextDataset,
      TextVectorizer.from_dataframe]
  constructor
  · intro hall
    have hle : maxTextLen records ≤ 1000 :=
      foldl_max_le _ 0 1000 (Nat.zero_le _)
        (by
          intro x hx
          obtain ⟨r, hr, rfl⟩ := List.mem_map.mp hx
          exact hall r hr)
    rw [hvect, if_neg (by omega)]
    exact ⟨rfl, fun r hr => le_maxTextLen records r hr⟩
  · intro ⟨r, hr, hrlen⟩
    have hgt : 1000 < maxTextLen records :=
      lt_of_lt_of_le hrlen (le_maxTextLen records r hr)
    rw [hvect, if_pos (by omega)]

/-- A record list whose single text is longer than 1000 characters. -/
def longRecords : List Record :=
  [⟨List.replicate 1001 'a', "pos"⟩]

/-- Witness for C8: on `sampleRecords` (all texts of length 1) the
bound is the true maximum, and on `longRecords` (text of length 1001)
the bound is 359. -/
theorem seq_len_capped_witness :
    (load_dataset_and_make_vectorizer sampleRecords ["the".data]
        sampleRecords (sampleRecords.drop 1)).vectorizer.seqLen
      = maxTextLen sampleRecords ∧
    (load_dataset_and_make_vectorizer longRecords ["the".data]
        longRecords []).vectorizer.seqLen = 359 := by
  constructor
  · exact ((seq_len_capped sampleRecords ["the".data] sampleRecords
      (sampleRecords.drop 1)).1 (by decide)).1
  · exact (seq_len_capped longRecords ["the".data] longRecords []).2
      ⟨⟨List.replicate 1001 'a', "pos"⟩, List.mem_singleton.mpr rfl,
        by rw [List.length_replicate]; omega⟩

/-- C6 counterexample: the claim says every index outside
`0 ≤ index < size()` fails with `IndexOutOfRange`, but on a concrete
dataset with a train split of size 3 the call `get_item(-1)` succeeds,
because `iloc` accepts negative positions. -/
theorem getItem_neg_one_ok :
    getItem sampleDS (-1) = .ok ([1], 0) ∧
    (-1 : Int) < 0 ∧ 0 < size sampleDS :=
  ⟨rfl, by decide, by decide⟩

/-- C6 (amended): `get_item` fails with `IndexOutOfRange` exactly for
indices at or beyond the split size and for indices below `-size()`
(negative indices from `-size()` to `-1` are accepted, Python-style);
an index resolving to a record whose label is absent from the label
vocabulary fails with `UnknownLabel`. -/
theorem getItem_range_errors (ds : TextDataset) (i : Int)
    (hwf : ds.target_size = ds.target_data.length) :
    (((size ds : Int) ≤ i ∨ i + (size ds : Int) < 0) →
      getItem ds i = .error .IndexOutOfRange) ∧
    (∀ row, ilocGet ds.target_data i = some row →
      lookupToken ds.vectorizer.labelVocab row.label = none →
      getItem ds i = .error .UnknownLabel) := by
  constructor
  · intro hout
    simp only [size, hwf] at hout
    have hnone : ilocGet ds.target_data i = none := by
      have hcond : ¬(0 ≤ (if i < 0 then i + (ds.target_data.length : Int)
          else i) ∧ (if i < 0 then i + (ds.target_data.length : Int)
          else i).toNat < ds.target_data.length) := by
        rcases hout with h | h
        · rw [if_neg (by omega)]
          intro hc
          omega
        · rw [if_pos (by omega)]
          intro hc
          omega
      simp only [ilocGet]
      exact dif_neg hcond
    simp only [getItem, hnone]
  · intro row hrow hlabel
    simp only [getItem, hrow, hlabel]

/-- Witness for the amended C6: index 5 on a split of size 3 fails with
`IndexOutOfRange`, and index 0 on a dataset whose record labels are
absent from the vocabulary fails with `UnknownLabel`. -/
theorem getItem_range_errors_witness :
    getItem sampleDS 5 = .error .IndexOutOfRange ∧
    getItem sampleBadDS 0 = .error .UnknownLabel :=
  ⟨(getItem_range_errors sampleDS 5 rfl).1 (by decide),
   (getItem_range_errors sampleBadDS 0 rfl).2 ⟨['c'], "neg"⟩ rfl rfl⟩

/-- C10 counterexample: the claim says `get_item(i)` never fails for
`-n ≤ i ≤ -1`, but on a concrete dataset whose record labels are absent
from the vocabulary, `get_item(-1)` fails with `UnknownLabel`. -/
theorem getItem_neg_index_fails_concrete :
    getItem sampleBadDS (-1) = .error .UnknownLabel ∧
    0 < size sampleBadDS ∧ -(size sampleBadDS : Int) ≤ -1 :=
  ⟨rfl, by decide, by decide⟩

/-- C10 (amended): for a split of size `n > 0` and `-n ≤ i ≤ -1`,
`get_item(i)` is delegated to positional lookup at `n + i`: it never
fails with `IndexOutOfRange`, equals `get_item(i + n)`, and when the
record at position `n + i` has a known label it returns that record's
features and label index (an unknown label still fails with
`UnknownLabel`). -/
theorem getItem_negative_index (ds : TextDataset) (i : Int)
    (hwf : ds.target_size = ds.target_data.length)
    (hn : 0 < size ds) (hlo : -(size ds : Int) ≤ i) (hhi : i ≤ -1) :
    getItem ds i = getItem ds (i + size ds) ∧
    getItem ds i ≠ .error .IndexOutOfRange ∧
    (∀ row, ds.target_data.get? (i + size ds).toNat = some row →
      ∀ k, lookupToken ds.vectorizer.labelVocab row.label = some k →
      getItem ds i = .ok
        (ds.vectorizer.vec (string_processing ds.stopwords row.text),
          k)) := by
  simp only [size, hwf] at hn hlo hhi ⊢
  have hcond : 0 ≤ i + (ds.target_data.length : Int) ∧
      (i + (ds.target_data.length : Int)).toNat
        < ds.target_data.length := by
    constructor <;> omega
  have hkey1 : ilocGet ds.target_data i
      = ds.target_data.get? (i + (ds.target_data.length : Int)).toNat := by
    simp only [ilocGet, if_pos (show i < 0 by omega)]
    rw [dif_pos hcond]
    exact (List.get?_eq_get hcond.2).symm
  have hkey2 : ilocGet ds.target_data (i + (ds.target_data.length : Int))
      = ds.target_data.get? (i + (ds.target_data.length : Int)).toNat := by
    simp only [ilocGet,
      if_neg (show ¬(i + (ds.target_data.length : Int) < 0) by omega)]
    rw [dif_pos hcond]
    exact (List.get?_eq_get hcond.2).symm
  have hrow : ds.target_data.get? (i + (ds.target_data.length : Int)).toNat
      = some (ds.target_data.get ⟨(i + (ds.target_data.length : Int)).toNat,
          hcond.2⟩) := List.get?_eq_get hcond.2
  refine ⟨?_, ?_, ?_⟩
  · simp only [getItem, hkey1, hkey2]
  · simp only [getItem, hkey1, hrow]
    cases lookupToken ds.vectorizer.labelVocab
        (ds.target_data.get ⟨(i + (ds.target_data.length : Int)).toNat,
          hcond.2⟩).label with
    | none => simp
    | some k => simp
  · intro row hrowEq k hk
    simp only [getItem, hkey1, hrowEq, hk]

/-- Witness for the amended C10 at `i = -1` on a split of size 3 with
known labels: the call equals the positional lookup at `2` and returns
that record's features and label index. -/
theorem getItem_negative_index_witness :
    getItem sampleDS (-1) = getItem sampleDS (-1 + size sampleDS) ∧
    getItem sampleDS (-1) ≠ .error .IndexOutOfRange ∧
    getItem sampleDS (-1) = .ok (sampleDS.vectorizer.vec
      (string_processing sampleDS.stopwords ['e']), 0) := by
  have h := getItem_negative_index sampleDS (-1) rfl (by decide)
    (by decide) (by decide)
  exact ⟨h.1, h.2.1, h.2.2 ⟨['e'], "pos"⟩ rfl 0 rfl⟩

lemma chunkListFuel_nil {α : Type} (bs f : Nat) :
    chunkListFuel (α := α) bs f [] = [] := by
  cases f <;> rfl

lemma chunkListFuel_flatten {α : Type} (b : Nat) :
    ∀ (f : Nat) (l : List α), l.length ≤ f →
      (chunkListFuel (b + 1) f l).flatten = l
  | f, [], _ => by rw [chunkListFuel_nil]; rfl
  | f + 1, c :: cs, h => by
      simp only [chunkListFuel, List.flatten_cons]
      rw [chunkListFuel_flatten b f (cs.drop b)
        (by rw [List.length_drop]; simp at h; omega)]
      rw [← List.drop_succ_cons, List.take_append_drop]

lemma chunkListFuel_map_length {α β : Type} (b : Nat) :
    ∀ (f : Nat) (l1 : List α) (l2 : List β), l1.length = l2.length →
      l1.length ≤ f →
      (chunkListFuel (b + 1) f l1).map List.length
        = (chunkListFuel (b + 1) f l2).map List.length
  | f, [], l2, hlen, _ => by
      simp only [List.length_nil] at hlen
      have : l2 = [] := List.length_eq_zero.mp hlen.symm
      subst this
      rw [chunkListFuel_nil, chunkListFuel_nil]
      simp
  | f + 1, c :: cs, l2, hlen, h => by
      cases l2 with
      | nil => simp at hlen
      | cons d ds =>
          simp only [chunkListFuel, List.map_cons]
          have hlen2 : cs.length = ds.length := by simpa using hlen
          have hf : cs.length ≤ f := by
            simp only [List.length_cons] at h
            omega
          rw [chunkListFuel_map_length b f (cs.drop b) (ds.drop b)
            (by simp [hlen2]) (by simp only [List.length_drop]; omega)]
          simp [List.length_take, hlen2]

lemma chunkListFuel_structure {α : Type} (b : Nat) :
    ∀ (f : Nat) (l : List α), l.length ≤ f →
      (∀ ch ∈ (chunkListFuel (b + 1) f l).take (l.length / (b + 1)),
        ch.length = b + 1) ∧
      (∀ ch ∈ (chunkListFuel (b + 1) f l).drop (l.length / (b + 1)),
        0 < ch.length ∧ ch.length < b + 1) ∧
      ((chunkListFuel (b + 1) f l).drop (l.length / (b + 1))).length ≤ 1 ∧
      ((b + 1) ∣ l.length →
        (chunkListFuel (b + 1) f l).drop (l.length / (b + 1)) = [])
  | f, [], _ => by
      rw [chunkListFuel_nil]
      simp
  | f + 1, c :: cs, h => by
      by_cases hsmall : (c :: cs).length < b + 1
      · have hdiv : (c :: cs).length / (b + 1) = 0 := Nat.div_eq_of_lt hsmall
        have hdropnil : cs.drop b = [] :=
          List.drop_eq_nil_of_le (by simp at hsmall ⊢; omega)
        have htake : (c :: cs).take (b + 1) = c :: cs :=
          List.take_of_length_le (by omega)
        simp only [chunkListFuel, hdropnil, chunkListFuel_nil, hdiv,
          List.take_zero, List.drop_zero, htake]
        refine ⟨by simp, ?_, by simp, ?_⟩
        · intro ch hch
          rw [List.mem_singleton] at hch
          subst hch
          exact ⟨Nat.succ_pos _, hsmall⟩
        · intro hdvd
          have : (c :: cs).length = 0 :=
            Nat.eq_zero_of_dvd_of_lt hdvd hsmall
          simp at this
      · have hge : b + 1 ≤ (c :: cs).length := by omega
        have hm : (cs.drop b).length = (c :: cs).length - (b + 1) := by
          simp only [List.length_drop, List.length_cons]
          omega
        have hdiv : (c :: cs).length / (b + 1)
            = (cs.drop b).length / (b + 1) + 1 := by
          rw [hm]
          conv_lhs => rw [show (c :: cs).length
            = ((c :: cs).length - (b + 1)) + (b + 1) from by omega]
          rw [Nat.add_div_right _ (Nat.succ_pos b)]
        have hf : cs.length ≤ f := by
          simp only [List.length_cons] at h
          omega
        obtain ⟨ih1, ih2, ih3, ih4⟩ :=
          chunkListFuel_structure b f (cs.drop b)
            (by simp only [List.length_drop]; omega)
        simp only [chunkListFuel, hdiv, List.take_succ_cons,
          List.drop_succ_cons]
        refine ⟨?_, ih2, ih3, ?_⟩
        · intro ch hch
          rcases List.mem_cons.mp hch with hh | hh
          · subst hh
            have hbcs : b ≤ cs.length := by
              simp only [List.length_cons] at hge
              omega
            simp only [List.length_cons, List.length_take]
            omega
          · exact ih1 ch hh
        · intro hdvd
          refine ih4 ?_
          have : (c :: cs).length = (cs.drop b).length + (b + 1) := by omega
          rw [this] at hdvd
          exact (Nat.dvd_add_self_right).mp hdvd


/-- A concrete dataset built from 18 records, whose train split has
exactly 10 records. -/
def dsTen : TextDataset :=
  mkTextDataset sampleVectorizer [] (List.replicate 18 ⟨[], "pos"⟩)
    ((List.replicate 18 (⟨[], "pos"⟩ : Record)).drop 4)

/-- C7: over a split of size 10, batch_size-4 batching yields exactly
two full batches of 4 when drop_last and batches of sizes 4, 4, 2
otherwise; in general the batch sequence is finite, without drop_last
its concatenation is exactly the sampled index sequence (a permutation
of the split's indices), with drop_last every batch is full, and the
difference between the two is at most one trailing undersized chunk,
which is absent exactly when the batch size divides the split size. -/
theorem generate_batches_spec (ds : TextDataset) (sh : List Nat)
    (bs : Nat) (hbs : 0 < bs) (hsh : sh.Perm (List.range (size ds))) :
    (size ds = 10 →
      (generateBatches ds 4 sh true).map List.length = [4, 4] ∧
      (generateBatches ds 4 sh false).map List.length = [4, 4, 2]) ∧
    (generateBatches ds bs sh false).flatten = sh ∧
    (generateBatches ds bs sh false).flatten.Perm
      (List.range (size ds)) ∧
    (∀ batch ∈ generateBatches ds bs sh true, batch.length = bs) ∧
    (∀ batch ∈ (generateBatches ds bs sh false).drop (sh.length / bs),
      0 < batch.length ∧ batch.length < bs) ∧
    ((generateBatches ds bs sh false).drop (sh.length / bs)).length
      ≤ 1 ∧
    (bs ∣ sh.length →
      generateBatches ds bs sh true = generateBatches ds bs sh false) := by
  obtain ⟨b, rfl⟩ : ∃ b, bs = b + 1 := ⟨bs - 1, by omega⟩
  have hlen : sh.length = size ds := by
    rw [hsh.length_eq, List.length_range]
  have hflat : (chunkList (b + 1) sh).flatten = sh :=
    chunkListFuel_flatten b sh.length sh (Nat.le_refl _)
  obtain ⟨hfull, hshort, hone, hdvd⟩ :=
    chunkListFuel_structure b sh.length sh (Nat.le_refl _)
  simp only [generateBatches, if_true, Bool.false_eq_true, if_false]
  refine ⟨?_, hflat, ?_, ?_, ?_, ?_, ?_⟩
  · intro h10
    have hsh10 : sh.length = 10 := by omega
    have hmap : (chunkList 4 sh).map List.length
        = (chunkList 4 (List.range 10)).map List.length := by
      simp only [chunkList, hsh10, List.length_range]
      exact chunkListFuel_map_length 3 10 sh (List.range 10)
        (by simp [hsh10]) (by omega)
    have hmapval : (chunkList 4 sh).map List.length = [4, 4, 2] := by
      rw [hmap]
      decide
    constructor
    · rw [hsh10, List.map_take, hmapval]
      decide
    · exact hmapval
  · rw [hflat]
    exact hsh
  · intro batch hb
    exact hfull batch (by simpa [chunkList] using hb)
  · intro batch hb
    exact hshort batch (by simpa [chunkList] using hb)
  · simpa [chunkList] using hone
  · intro hd
    have hnil := hdvd hd
    conv_rhs => rw [← List.take_append_drop (sh.length / (b + 1))
      (chunkList (b + 1) sh)]
    rw [show List.drop (sh.length / (b + 1)) (chunkList (b + 1) sh) = []
      from by simpa [chunkList] using hnil]
    rw [List.append_nil]


/-- Witness for C7 on a concrete dataset whose train split has 10
records, sampling the indices in order. -/
theorem generate_batches_spec_witness :
    (generateBatches dsTen 4 (List.range 10) true).map List.length
      = [4, 4] ∧
    (generateBatches dsTen 4 (List.range 10) false).map List.length
      = [4, 4, 2] ∧
    (generateBatches dsTen 4 (List.range 10) false).flatten
      = List.range 10 := by
  have h := generate_batches_spec dsTen (List.range 10) 4 (by decide)
    (by decide)
  exact ⟨(h.1 (by decide)).1, (h.1 (by decide)).2, h.2.1⟩

end SentimentDataset
